import Mathlib

/-!
Shallow embedding of the checklist report core of `src/app.py`
(value normalizer, time utilities, shift indexer, report builder),
with theorems checking the specification's claims against it.
-/

namespace Evocon

/-- A Python `datetime.time` restricted to the hour/minute fields the
program ever sets (seconds and microseconds are always zero here). -/
structure Time where
  hour : Nat
  minute : Nat
deriving DecidableEq, Repr

/-- Python `time` objects compare lexicographically by their fields. -/
def timeLt (a b : Time) : Prop :=
  a.hour < b.hour ∨ (a.hour = b.hour ∧ a.minute < b.minute)

instance : DecidablePred (fun p : Time × Time => timeLt p.1 p.2) :=
  fun _ => by unfold timeLt; infer_instance

instance (a b : Time) : Decidable (timeLt a b) := by unfold timeLt; infer_instance

/-- Lexicographic `≤` on times, as used by Python tuple/`time` comparison. -/
def timeLe (a b : Time) : Prop :=
  a.hour < b.hour ∨ (a.hour = b.hour ∧ a.minute ≤ b.minute)

instance (a b : Time) : Decidable (timeLe a b) := by unfold timeLe; infer_instance

/-- Numeric value of a decimal digit character. -/
def dval (c : Char) : Nat := c.toNat - '0'.toNat

/-- Remove leading and trailing whitespace from a character list. -/
def trimChars (l : List Char) : List Char :=
  ((l.dropWhile Char.isWhitespace).reverse.dropWhile Char.isWhitespace).reverse

/-- Python `str.strip()`: trim whitespace at both ends. -/
def pyStrip (s : String) : String := ⟨trimChars s.data⟩

/-- `parse_hhmm` from `src/app.py`: `datetime.strptime(s.strip(), "%H:%M").time()`
wrapped in try/except.  `strptime`'s `%H` matches `2[0-3]|[0-1]\d|\d` and `%M`
matches `[0-5]\d|\d`, and the whole (stripped) string must be consumed; any
failure yields `None`.  Net effect: the stripped string must be one or two
digits, a colon, then one or two digits, with two-digit hours at most 23 and
two-digit minutes at most 59.  Digits are modelled as ASCII digits (the `\d`
positions of Python's pattern also admit other Unicode digits; inputs using
those are outside this model). -/
def parse_hhmm (s : String) : Option Time :=
  match (pyStrip s).data with
  | [h, ':', m] =>
      if h.isDigit ∧ m.isDigit then some ⟨dval h, dval m⟩ else none
  | [h1, h2, ':', m] =>
      if h1.isDigit ∧ h2.isDigit ∧ m.isDigit ∧ 10 * dval h1 + dval h2 ≤ 23 then
        some ⟨10 * dval h1 + dval h2, dval m⟩
      else none
  | [h, ':', m1, m2] =>
      if h.isDigit ∧ m1.isDigit ∧ m2.isDigit ∧ 10 * dval m1 + dval m2 ≤ 59 then
        some ⟨dval h, 10 * dval m1 + dval m2⟩
      else none
  | [h1, h2, ':', m1, m2] =>
      if h1.isDigit ∧ h2.isDigit ∧ m1.isDigit ∧ m2.isDigit ∧
          10 * dval h1 + dval h2 ≤ 23 ∧ 10 * dval m1 + dval m2 ≤ 59 then
        some ⟨10 * dval h1 + dval h2, 10 * dval m1 + dval m2⟩
      else none
  | _ => none

/-- A dynamically typed Python value, as far as `parse_hhmm` can receive one. -/
inductive PyVal where
  | pyNone : PyVal
  | pyStr : String → PyVal
  | pyInt : Int → PyVal
  | pyBool : Bool → PyVal
deriving DecidableEq, Repr

/-- `parse_hhmm` applied to an arbitrary dynamic value: a non-string has no
`.strip` method, so `s.strip()` raises `AttributeError`, which the
`except Exception` clause absorbs into `None`. -/
def parse_hhmm_any (v : PyVal) : Option Time :=
  match v with
  | PyVal.pyStr s => parse_hhmm s
  | _ => none

/-- `minutes` from `src/app.py`: `t.hour * 60 + t.minute`. -/
def minutes (t : Time) : Nat := t.hour * 60 + t.minute

/-- `normalize_value`'s final step `s.replace(",", ".")`: for the
single-character pattern this replaces each comma character by a period. -/
def replaceCommas (s : String) : String :=
  ⟨s.data.map (fun c => if c = ',' then '.' else c)⟩

/-- `normalize_value` from `src/app.py`, where the dynamic argument is either
`None` or (the string form of) a scalar. -/
def normalize_value (v : Option String) : String :=
  match v with
  | none => ""
  | some raw =>
      let s := pyStrip raw
      if s = "-" ∨ s = "N/A" ∨ s = "n/a" then "" else replaceCommas s

/-- The `SHIFT_START` table from `src/app.py`. -/
def SHIFT_START : List (String × String) :=
  [("A", "06:00"), ("B", "14:00"), ("Γ", "22:00")]

/-- Association-list lookup modelling Python `dict` lookup (keys are unique
in every dict we build, so first match is the match). -/
def alookup {K V : Type} [DecidableEq K] (k : K) : List (K × V) → Option V
  | [] => none
  | (k', v) :: t => if k' = k then some v else alookup k t

/-- The sort key built inside `sort_donetime_list`, parameterised by the
shift-start table as the specification presents it:
`(minutes(parse(t) or 00:00) - minutes(parse(start) or 00:00)) mod 1440`. -/
def shift_relative_key (tstr : String) (shift_name : String)
    (table : List (String × String)) : Int :=
  let start_str := (alookup shift_name table).getD "00:00"
  let start_t := (parse_hhmm start_str).getD ⟨0, 0⟩
  let start_m := minutes start_t
  let t := (parse_hhmm tstr).getD ⟨0, 0⟩
  ((minutes t : Int) - (start_m : Int)) % (24 * 60)

/-- The comparison used by `sort_donetime_list`: ascending shift-relative key. -/
def dtLE (shift_name : String) (a b : String) : Prop :=
  shift_relative_key a shift_name SHIFT_START ≤
    shift_relative_key b shift_name SHIFT_START

instance (sh : String) : DecidableRel (dtLE sh) := by
  unfold dtLE; infer_instance

instance (sh : String) : IsTotal String (dtLE sh) :=
  ⟨fun _ _ => Int.le_total _ _⟩

instance (sh : String) : IsTrans String (dtLE sh) :=
  ⟨fun _ _ _ hab hbc => le_trans hab hbc⟩

/-- `sort_donetime_list` from `src/app.py`: stable ascending sort by the
shift-relative key.  Python `sorted` is a stable sort, and a stable sort by a
total preorder computes a unique function, embedded here as stable insertion
sort. -/
def sort_donetime_list (times : List String) (shift_name : String) : List String :=
  times.insertionSort (dtLE shift_name)

/-- A raw checklist record: a Python mapping whose fields may be missing
(`none`) or hold (the string form of) a scalar. -/
structure Record where
  shiftDate : Option String := none
  shift : Option String := none
  station : Option String := none
  donetime : Option String := none
  itemname : Option String := none
  itemresult : Option String := none
  operator : Option String := none
  productproduced : Option String := none
  productionOrder : Option String := none
deriving DecidableEq, Repr

/-- Field coercion used throughout `src/app.py`:
`str(r.get(f) or "").strip()`. -/
def sget (o : Option String) : String := pyStrip (o.getD "")

/-- In-place update of the entry at a key of an association list, modelling
assignment to an existing Python `dict` key (position preserved). -/
def aupdate {K V : Type} [DecidableEq K] (k : K) (f : V → V) :
    List (K × V) → List (K × V)
  | [] => []
  | (k', v) :: tl =>
      if k' = k then (k', f v) :: tl else (k', v) :: aupdate k f tl

/-- A shift group produced by `build_shift_index`. -/
structure Group where
  shiftDate : String
  shift : String
  station : String
  last_time : Option Time
deriving DecidableEq, Repr

/-- Key of a shift group. -/
abbrev GKey : Type := String × String × String

/-- One iteration of the scan loop of `build_shift_index`: skip a record
with an empty (trimmed) `shiftDate`, `shift`, `station` or `donetime`;
otherwise create the group (new keys are appended, as in an
insertion-ordered Python `dict`) or update its `last_time` exactly as the
code does: only a parsed time that is strictly later than a present
`last_time`, or any parsed time when `last_time` is absent, overwrites. -/
def idxStep (idx : List (GKey × Group)) (r : Record) : List (GKey × Group) :=
  let sd := sget r.shiftDate
  let sh := sget r.shift
  let st := sget r.station
  let dt := sget r.donetime
  if sd = "" ∨ sh = "" ∨ st = "" ∨ dt = "" then idx
  else
    let t := parse_hhmm dt
    let k : GKey := (sd, sh, st)
    match alookup k idx with
    | none => idx ++ [(k, ⟨sd, sh, st, t⟩)]
    | some _ =>
        aupdate k (fun g =>
          match t, g.last_time with
          | some tt, none => { g with last_time := some tt }
          | some tt, some old =>
              if timeLt old tt then { g with last_time := some tt } else g
          | none, _ => g) idx

/-- A Python `datetime.date`. -/
structure Date where
  year : Nat
  month : Nat
  day : Nat
deriving DecidableEq, Repr

def isLeap (y : Nat) : Bool := y % 4 == 0 && (y % 100 != 0 || y % 400 == 0)

def daysInMonth (y m : Nat) : Nat :=
  if m = 2 then (if isLeap y then 29 else 28)
  else if m = 4 ∨ m = 6 ∨ m = 9 ∨ m = 11 then 30
  else 31

/-- Validity check done by the `datetime.date` constructor (plus the
range facts the `strptime` regex already guarantees). -/
def mkDate (y mo da : Nat) : Option Date :=
  if 1 ≤ y ∧ 1 ≤ mo ∧ mo ≤ 12 ∧ 1 ≤ da ∧ da ≤ daysInMonth y mo then
    some ⟨y, mo, da⟩
  else none

/-- `datetime.strptime(s, "%Y-%m-%d").date()` under try/except: `%Y` matches
exactly four digits, `%m` matches `1[0-2]|0[1-9]|[1-9]`, `%d` matches
`3[01]|[12]\d|0[1-9]|[1-9]`, the whole string must be consumed, and the
`date` constructor then validates the day against the month length. -/
def parse_date (s : String) : Option Date :=
  match s.data with
  | [y1, y2, y3, y4, '-', a, '-', b] =>
      if y1.isDigit ∧ y2.isDigit ∧ y3.isDigit ∧ y4.isDigit ∧ a.isDigit ∧ b.isDigit then
        mkDate (1000 * dval y1 + 100 * dval y2 + 10 * dval y3 + dval y4) (dval a) (dval b)
      else none
  | [y1, y2, y3, y4, '-', a1, a2, '-', b] =>
      if y1.isDigit ∧ y2.isDigit ∧ y3.isDigit ∧ y4.isDigit ∧
          a1.isDigit ∧ a2.isDigit ∧ b.isDigit then
        mkDate (1000 * dval y1 + 100 * dval y2 + 10 * dval y3 + dval y4)
          (10 * dval a1 + dval a2) (dval b)
      else none
  | [y1, y2, y3, y4, '-', a, '-', b1, b2] =>
      if y1.isDigit ∧ y2.isDigit ∧ y3.isDigit ∧ y4.isDigit ∧
          a.isDigit ∧ b1.isDigit ∧ b2.isDigit then
        mkDate (1000 * dval y1 + 100 * dval y2 + 10 * dval y3 + dval y4)
          (dval a) (10 * dval b1 + dval b2)
      else none
  | [y1, y2, y3, y4, '-', a1, a2, '-', b1, b2] =>
      if y1.isDigit ∧ y2.isDigit ∧ y3.isDigit ∧ y4.isDigit ∧
          a1.isDigit ∧ a2.isDigit ∧ b1.isDigit ∧ b2.isDigit then
        mkDate (1000 * dval y1 + 100 * dval y2 + 10 * dval y3 + dval y4)
          (10 * dval a1 + dval a2) (10 * dval b1 + dval b2)
      else none
  | _ => none

/-- `datetime.min.date()`. -/
def date_min : Date := ⟨1, 1, 1⟩

/-- `datetime.min.time()`. -/
def time_min : Time := ⟨0, 0⟩

/-- The `sort_key` closure of `build_shift_index`: parsed date (falling back
to the earliest representable date) paired with `last_time` (falling back to
midnight). -/
def idx_sort_key (g : Group) : Date × Time :=
  ((parse_date g.shiftDate).getD date_min, g.last_time.getD time_min)

/-- Lexicographic `≤` on (date, time) pairs, as Python compares them. -/
def dtKeyLE (a b : Date × Time) : Prop :=
  a.1.year < b.1.year ∨ (a.1.year = b.1.year ∧
    (a.1.month < b.1.month ∨ (a.1.month = b.1.month ∧
      (a.1.day < b.1.day ∨ (a.1.day = b.1.day ∧ timeLe a.2 b.2)))))

instance (a b : Date × Time) : Decidable (dtKeyLE a b) := by
  unfold dtKeyLE; infer_instance

/-- Descending comparison on groups: `a` may precede `b` iff `b`'s sort key
is at most `a`'s (what `sorted(..., reverse=True)` orders by). -/
def groupGE (a b : Group) : Prop := dtKeyLE (idx_sort_key b) (idx_sort_key a)

instance : DecidableRel groupGE := by
  unfold groupGE; infer_instance

instance : IsTotal Group groupGE := by
  refine ⟨fun a b => ?_⟩
  unfold groupGE dtKeyLE timeLe
  omega

instance : IsTrans Group groupGE := by
  refine ⟨fun a b c hab hbc => ?_⟩
  unfold groupGE dtKeyLE timeLe at *
  omega

/-- `build_shift_index` from `src/app.py`: scan the records into an
insertion-ordered map, take its values, and stably sort them descending by
(parsed date, last time). -/
def build_shift_index (rows : List Record) : List Group :=
  ((rows.foldl idxStep []).map Prod.snd).insertionSort groupGE

/-- The fixed item catalog `ORDERED_ITEMS` from `src/app.py`
(`ALLOWED_ITEMS` is its set form, i.e. membership in this list). -/
def ORDERED_ITEMS : List String :=
  ["Θερμοκρασία λαμινατορίου (°C)",
   "Είδος μαργαρίνης",
   "Θερμοκρασία μαργαρίνης (°C)",
   "Λαμάκι μαργαρίνης (mm)",
   "Λαμάκι recupero (mm)",
   "Διάκενο μαχαιριών (cm)",
   "Πάχος extruder (1η)",
   "Πάχος extruder (2η)",
   "Ποσοστό μαργαρίνης (%)",
   "Ποσοστό ανακύκλωσης ζύμης recupero (%)"]

/-- The report header triple. -/
structure Header where
  operator : String
  product : String
  productionOrder : String
deriving DecidableEq, Repr

/-- One matrix row. -/
structure Row where
  label : String
  values : List String
deriving DecidableEq, Repr

/-- The value returned by `build_report`. -/
structure Report where
  columns : List String
  matrix : List Row
  header : Header
  shiftDate : String
  shift : String
  station : String
deriving DecidableEq, Repr

/-- The record filter of `build_report` step 1: trimmed `shiftDate`, `shift`
and `station` must equal the selectors exactly. -/
def matchesSel (r : Record) (shiftDate shiftName station : String) : Bool :=
  sget r.shiftDate == shiftDate && sget r.shift == shiftName &&
    sget r.station == station

/-- Per-`donetime` item-value maps, outer and inner insertion ordered. -/
abbrev Subs : Type := List (String × List (String × String))

/-- Per-`donetime` header triples. -/
abbrev Meta : Type := List (String × Header)

/-- Python `inner[k] = v`: replace in place if present, else append. -/
def setInner (k v : String) : List (String × String) → List (String × String)
  | [] => [(k, v)]
  | (k', v') :: tl =>
      if k' = k then (k, v) :: tl else (k', v') :: setInner k v tl

/-- `submissions.setdefault(donetime, {}); submissions[donetime][itemname] = v`. -/
def setItem (subs : Subs) (dt iname v : String) : Subs :=
  match alookup dt subs with
  | none => subs ++ [(dt, [(iname, v)])]
  | some _ => aupdate dt (setInner iname v) subs

/-- A record's eligibility in `build_report`'s accumulation loop: non-empty
trimmed `donetime` and a recognized `itemname`. -/
def eligible (cat : List String) (r : Record) : Prop :=
  sget r.donetime ≠ "" ∧ sget r.itemname ∈ cat

instance (cat : List String) (r : Record) : Decidable (eligible cat r) := by
  unfold eligible; infer_instance

/-- The `submissions` update of one loop iteration of `build_report`. -/
def subStep (cat : List String) (subs : Subs) (r : Record) : Subs :=
  if eligible cat r then
    setItem subs (sget r.donetime) (sget r.itemname) (normalize_value r.itemresult)
  else subs

/-- The `meta` update of one loop iteration of `build_report`: only the
first record seen at a `donetime` records the header triple. -/
def metaStep (cat : List String) (meta : Meta) (r : Record) : Meta :=
  if eligible cat r then
    if (alookup (sget r.donetime) meta).isSome then meta
    else meta ++ [(sget r.donetime,
      ⟨sget r.operator, sget r.productproduced, sget r.productionOrder⟩)]
  else meta

/-- One iteration of `build_report`'s loop; the body updates `submissions`
and `meta` independently of each other. -/
def procStep (cat : List String) (acc : Subs × Meta) (r : Record) : Subs × Meta :=
  (subStep cat acc.1 r, metaStep cat acc.2 r)

/-- The all-empty header triple. -/
def emptyHeader : Header := ⟨"", "", ""⟩

/-- Step 1 of `build_report`: the surviving records. -/
def filteredOf (rows : List Record) (shiftDate shiftName station : String) :
    List Record :=
  rows.filter (fun r => matchesSel r shiftDate shiftName station)

/-- The `submissions` map accumulated by `build_report`'s loop. -/
def subsOf (cat : List String) (rows : List Record)
    (shiftDate shiftName station : String) : Subs :=
  ((filteredOf rows shiftDate shiftName station).foldl (procStep cat) ([], [])).1

/-- The `meta` map accumulated by `build_report`'s loop. -/
def metaOf (cat : List String) (rows : List Record)
    (shiftDate shiftName station : String) : Meta :=
  ((filteredOf rows shiftDate shiftName station).foldl (procStep cat) ([], [])).2

/-- `build_report` from `src/app.py`, with the module-level item catalog
(`ORDERED_ITEMS` / `ALLOWED_ITEMS`) made an explicit parameter `cat`;
the app instantiates `cat := ORDERED_ITEMS`. -/
def build_report (cat : List String) (rows : List Record)
    (shiftDate shiftName station : String) : Report :=
  let subs := subsOf cat rows shiftDate shiftName station
  let meta := metaOf cat rows shiftDate shiftName station
  let columns := sort_donetime_list (subs.map Prod.fst) shiftName
  let matrix := cat.map (fun item =>
    ⟨item, columns.map (fun t => (alookup item ((alookup t subs).getD [])).getD "")⟩)
  let header :=
    match columns.getLast? with
    | none => emptyHeader
    | some c => (alookup c meta).getD emptyHeader
  ⟨columns, matrix, header, shiftDate, shiftName, station⟩

/-! Specification-side scan functions, used to state what the accumulated
maps contain in terms of the record list itself. -/

/-- The last value written for item `item` at donetime `t` by the loop of
`build_report` over the given records (later records take precedence,
matching last-write-wins dict assignment). -/
def lastVal (cat : List String) (t item : String) : List Record → Option String
  | [] => none
  | r :: rs =>
      match lastVal cat t item rs with
      | some v => some v
      | none =>
          if eligible cat r ∧ sget r.donetime = t ∧ sget r.itemname = item then
            some (normalize_value r.itemresult)
          else none

/-- The header triple of the first eligible record at donetime `t`
(first-seen wins, as in the `meta` accumulation). -/
def firstTriple (cat : List String) (t : String) : List Record → Option Header
  | [] => none
  | r :: rs =>
      if eligible cat r ∧ sget r.donetime = t then
        some ⟨sget r.operator, sget r.productproduced, sget r.productionOrder⟩
      else firstTriple cat t rs

/-- A record the Shift Indexer keeps: all four fields non-empty after
trimming. -/
def validRec (r : Record) : Prop :=
  sget r.shiftDate ≠ "" ∧ sget r.shift ≠ "" ∧ sget r.station ≠ "" ∧
    sget r.donetime ≠ ""

instance (r : Record) : Decidable (validRec r) := by
  unfold validRec; infer_instance

/-- The group key of a record. -/
def rkey (r : Record) : GKey := (sget r.shiftDate, sget r.shift, sget r.station)

/-- The later of two times (Python `>` comparison, first argument kept on
ties). -/
def tmax (a b : Time) : Time := if timeLt a b then b else a

/-- Maximum of two optional times, absent being neutral. -/
def optMax : Option Time → Option Time → Option Time
  | none, b => b
  | some a, none => some a
  | some a, some b => some (tmax a b)

/-- The maximum validly parsed donetime over the kept records with group
key `k` (absent when none parses). -/
def maxOver (k : GKey) : List Record → Option Time
  | [] => none
  | r :: rs =>
      optMax (if validRec r ∧ rkey r = k then parse_hhmm (sget r.donetime) else none)
        (maxOver k rs)

/-- Strict lexicographic order on dates. -/
def dateLt (a b : Date) : Prop :=
  a.year < b.year ∨ (a.year = b.year ∧
    (a.month < b.month ∨ (a.month = b.month ∧ a.day < b.day)))

/-- The date component of a group's sort key (parsed date, or the earliest
representable date when unparsable). -/
def dateKey (g : Group) : Date := (parse_date g.shiftDate).getD date_min

/-- The time component of a group's sort key (`last_time`, or the earliest
time-of-day when absent). -/
def timeKey (g : Group) : Time := g.last_time.getD time_min

/-! Concrete records used by the specification's example scenarios. -/

/-- First record of the spec's end-to-end scenario. -/
def exRec1 : Record := {
  shiftDate := some "2024-01-01", shift := some "A", station := some "S1",
  donetime := some "06:05", itemname := some "Θερμοκρασία λαμινατορίου (°C)",
  itemresult := some "72,5", operator := some "John", productproduced := some "X",
  productionOrder := some "PO1" }

/-- Second record of the spec's end-to-end scenario. -/
def exRec2 : Record := {
  shiftDate := some "2024-01-01", shift := some "A", station := some "S1",
  donetime := some "07:10", itemname := some "Θερμοκρασία λαμινατορίου (°C)",
  itemresult := some "-" }

/-- Indexer example: first record under key (2024-01-01, A, Line1). -/
def exQ1 : Record := {
  shiftDate := some "2024-01-01", shift := some "A", station := some "Line1",
  donetime := some "08:00" }

/-- Indexer example: second record under the same key. -/
def exQ2 : Record := {
  shiftDate := some "2024-01-01", shift := some "A", station := some "Line1",
  donetime := some "09:30" }

/-- Indexer example: a record missing `station`. -/
def exQbad : Record := {
  shiftDate := some "2024-01-01", shift := some "A", donetime := some "09:30" }

/-- Indexer ordering example: a group on the next day. -/
def exQ3 : Record := {
  shiftDate := some "2024-01-02", shift := some "A", station := some "Line1",
  donetime := some "07:00" }

/-! Generic lemmas about the association-list model of Python dicts. -/

/-- Left-biased choice on options (`oor a b` is `a` unless `a` is absent). -/
def oor {α : Type} : Option α → Option α → Option α
  | some a, _ => some a
  | none, b => b

theorem oor_none_left {α : Type} (b : Option α) : oor none b = b := rfl

theorem oor_none_right {α : Type} (a : Option α) : oor a none = a := by
  cases a <;> rfl

theorem oor_assoc {α : Type} (a b c : Option α) :
    oor (oor a b) c = oor a (oor b c) := by
  cases a <;> rfl

theorem alookup_append {K V : Type} [DecidableEq K] (k : K)
    (l₁ l₂ : List (K × V)) :
    alookup k (l₁ ++ l₂) = oor (alookup k l₁) (alookup k l₂) := by
  induction l₁ with
  | nil => rfl
  | cons p tl ih =>
      obtain ⟨k', v⟩ := p
      by_cases h : k' = k <;> simp [alookup, h, ih, oor]

theorem alookup_aupdate {K V : Type} [DecidableEq K] (k j : K) (f : V → V)
    (l : List (K × V)) :
    alookup j (aupdate k f l) =
      if k = j then (alookup j l).map f else alookup j l := by
  induction l with
  | nil => simp [aupdate, alookup]
  | cons p tl ih =>
      obtain ⟨k', v⟩ := p
      by_cases h : k' = k <;> by_cases hj : k' = j
      · subst h; subst hj; simp [aupdate, alookup]
      · subst h; simp [aupdate, alookup, hj]
      · subst hj
        have hk : ¬ k = k' := fun he => h he.symm
        simp [aupdate, alookup, h, hk]
      · simp [aupdate, alookup, h, hj, ih]

theorem alookup_eq_none_iff {K V : Type} [DecidableEq K] (k : K)
    (l : List (K × V)) :
    alookup k l = none ↔ k ∉ l.map Prod.fst := by
  induction l with
  | nil => simp [alookup]
  | cons p tl ih =>
      obtain ⟨k', v⟩ := p
      by_cases h : k' = k
      · subst h; simp [alookup]
      · have h2 : ¬ k = k' := fun he => h he.symm
        simp [alookup, h, h2, ih]

theorem alookup_isSome_iff {K V : Type} [DecidableEq K] (k : K)
    (l : List (K × V)) :
    (alookup k l).isSome = true ↔ k ∈ l.map Prod.fst := by
  rw [← Decidable.not_iff_not, ← alookup_eq_none_iff k l]
  cases alookup k l <;> simp

theorem alookup_of_nodup_mem {K V : Type} [DecidableEq K] {k : K} {v : V}
    {l : List (K × V)} (hnd : (l.map Prod.fst).Nodup) (hm : (k, v) ∈ l) :
    alookup k l = some v := by
  induction l with
  | nil => simp at hm
  | cons p tl ih =>
      obtain ⟨k', v'⟩ := p
      simp only [List.map_cons, List.nodup_cons] at hnd
      rcases List.mem_cons.mp hm with h | h
      · injection h with h1 h2
        subst h1; subst h2
        simp [alookup]
      · have hk : k' ≠ k := by
          intro he
          exact hnd.1 (he ▸ (List.mem_map.mpr ⟨(k, v), h, rfl⟩))
        simp [alookup, hk, ih hnd.2 h]

theorem map_fst_aupdate {K V : Type} [DecidableEq K] (k : K) (f : V → V)
    (l : List (K × V)) :
    (aupdate k f l).map Prod.fst = l.map Prod.fst := by
  induction l with
  | nil => rfl
  | cons p tl ih =>
      obtain ⟨k', v⟩ := p
      by_cases h : k' = k <;> simp [aupdate, h, ih]

theorem mem_aupdate {K V : Type} [DecidableEq K] {k : K} {f : V → V}
    {l : List (K × V)} {p : K × V} (hp : p ∈ aupdate k f l) :
    p ∈ l ∨ ∃ q ∈ l, p = (q.1, f q.2) := by
  induction l with
  | nil => simp [aupdate] at hp
  | cons q tl ih =>
      obtain ⟨k', v⟩ := q
      by_cases h : k' = k
      · simp only [aupdate, if_pos h] at hp
        rcases List.mem_cons.mp hp with h' | h'
        · exact Or.inr ⟨(k', v), List.mem_cons_self .., h'⟩
        · exact Or.inl (List.mem_cons_of_mem _ h')
      · simp only [aupdate, if_neg h] at hp
        rcases List.mem_cons.mp hp with h' | h'
        · exact Or.inl (h' ▸ List.mem_cons_self ..)
        · rcases ih h' with h'' | ⟨q, hq, he⟩
          · exact Or.inl (List.mem_cons_of_mem _ h'')
          · exact Or.inr ⟨q, List.mem_cons_of_mem _ hq, he⟩

/-! Lemmas describing one loop iteration of `build_report`. -/

/-- Looking up the value for `item` at donetime `t` in a submissions map. -/
def inLookup (t item : String) (s : Subs) : Option String :=
  alookup item ((alookup t s).getD [])

theorem alookup_setInner (j k v : String) (inner : List (String × String)) :
    alookup j (setInner k v inner) =
      if k = j then some v else alookup j inner := by
  induction inner with
  | nil =>
      by_cases h : k = j <;> simp [setInner, alookup, h]
  | cons p tl ih =>
      obtain ⟨k', v'⟩ := p
      by_cases h : k' = k <;> by_cases hj : k' = j
      · subst h; subst hj; simp [setInner, alookup]
      · subst h; simp [setInner, alookup, hj]
      · subst hj
        have hk : ¬ k = k' := fun he => h he.symm
        simp [setInner, alookup, h, hk]
      · simp [setInner, alookup, h, hj, ih]

theorem inLookup_setItem (t item dt iname v : String) (s : Subs) :
    inLookup t item (setItem s dt iname v) =
      if dt = t ∧ iname = item then some v else inLookup t item s := by
  unfold setItem
  cases hdt : alookup dt s with
  | none =>
      unfold inLookup
      rw [alookup_append]
      by_cases h : dt = t
      · subst h
        rw [hdt, oor_none_left]
        simp [alookup, alookup_setInner, hdt]
      · rw [show alookup t [(dt, [(iname, v)])] = none by simp [alookup, h]]
        rw [oor_none_right]
        simp [h]
  | some inner =>
      unfold inLookup
      rw [alookup_aupdate]
      by_cases h : dt = t
      · subst h
        rw [hdt]
        simp [alookup_setInner]
      · simp [h]

theorem alookup_setItem_isSome (t dt iname v : String) (s : Subs) :
    (alookup t (setItem s dt iname v)).isSome = true ↔
      (alookup t s).isSome = true ∨ dt = t := by
  unfold setItem
  cases hdt : alookup dt s with
  | none =>
      rw [alookup_append]
      by_cases h : dt = t
      · subst h
        rw [hdt, oor_none_left]
        simp [alookup]
      · rw [show alookup t [(dt, [(iname, v)])] = none by simp [alookup, h]]
        rw [oor_none_right]
        simp [h]
  | some inner =>
      rw [alookup_aupdate]
      by_cases h : dt = t
      · subst h
        rw [hdt]
        simp
      · simp [h]

theorem foldl_procStep_split (cat : List String) (rs : List Record)
    (s : Subs) (m : Meta) :
    rs.foldl (procStep cat) (s, m) =
      (rs.foldl (subStep cat) s, rs.foldl (metaStep cat) m) := by
  induction rs generalizing s m with
  | nil => rfl
  | cons r tl ih => exact ih ..

theorem inLookup_subStep (cat : List String) (t item : String) (s : Subs)
    (r : Record) :
    inLookup t item (subStep cat s r) =
      if eligible cat r ∧ sget r.donetime = t ∧ sget r.itemname = item then
        some (normalize_value r.itemresult)
      else inLookup t item s := by
  unfold subStep
  by_cases he : eligible cat r
  · rw [if_pos he, inLookup_setItem]
    by_cases h1 : sget r.donetime = t <;> by_cases h2 : sget r.itemname = item <;>
      simp [he, h1, h2]
  · simp [he]

theorem inLookup_foldl_subStep (cat : List String) (t item : String)
    (rs : List Record) (s : Subs) :
    inLookup t item (rs.foldl (subStep cat) s) =
      oor (lastVal cat t item rs) (inLookup t item s) := by
  induction rs generalizing s with
  | nil => simp [lastVal, oor_none_left]
  | cons r tl ih =>
      show inLookup t item (tl.foldl (subStep cat) (subStep cat s r)) = _
      rw [ih, inLookup_subStep]
      by_cases hc : eligible cat r ∧ sget r.donetime = t ∧ sget r.itemname = item
      · simp only [lastVal, if_pos hc]
        cases hl : lastVal cat t item tl <;> simp [oor]
      · simp only [lastVal, if_neg hc]
        cases hl : lastVal cat t item tl <;> simp [oor]

theorem alookup_foldl_subStep_isSome (cat : List String) (t : String)
    (rs : List Record) (s : Subs) :
    (alookup t (rs.foldl (subStep cat) s)).isSome = true ↔
      (alookup t s).isSome = true ∨
        ∃ r ∈ rs, eligible cat r ∧ sget r.donetime = t := by
  induction rs generalizing s with
  | nil => simp
  | cons r tl ih =>
      show (alookup t (tl.foldl (subStep cat) (subStep cat s r))).isSome = true ↔ _
      rw [ih]
      unfold subStep
      by_cases he : eligible cat r
      · rw [if_pos he, alookup_setItem_isSome]
        constructor
        · rintro (⟨h | h⟩ | h)
          · exact Or.inl h
          · exact Or.inr ⟨r, List.mem_cons_self .., he, h⟩
          · rcases h with ⟨r', hr', h1, h2⟩
            exact Or.inr ⟨r', List.mem_cons_of_mem _ hr', h1, h2⟩
        · rintro (h | ⟨r', hr', h1, h2⟩)
          · exact Or.inl (Or.inl h)
          · rcases List.mem_cons.mp hr' with rfl | hm
            · exact Or.inl (Or.inr h2)
            · exact Or.inr ⟨r', hm, h1, h2⟩
      · rw [if_neg he]
        constructor
        · rintro (h | ⟨r', hr', h1, h2⟩)
          · exact Or.inl h
          · exact Or.inr ⟨r', List.mem_cons_of_mem _ hr', h1, h2⟩
        · rintro (h | ⟨r', hr', h1, h2⟩)
          · exact Or.inl h
          · rcases List.mem_cons.mp hr' with rfl | hm
            · exact absurd h1 he
            · exact Or.inr ⟨r', hm, h1, h2⟩

theorem firstTriple_cons (cat : List String) (t : String) (r : Record)
    (rs : List Record) :
    firstTriple cat t (r :: rs) =
      if eligible cat r ∧ sget r.donetime = t then
        some ⟨sget r.operator, sget r.productproduced, sget r.productionOrder⟩
      else firstTriple cat t rs := rfl

theorem alookup_foldl_metaStep (cat : List String) (t : String)
    (rs : List Record) (m : Meta) :
    alookup t (rs.foldl (metaStep cat) m) =
      oor (alookup t m) (firstTriple cat t rs) := by
  induction rs generalizing m with
  | nil => simp [firstTriple, oor_none_right]
  | cons r tl ih =>
      show alookup t (tl.foldl (metaStep cat) (metaStep cat m r)) = _
      rw [ih, firstTriple_cons]
      by_cases he : eligible cat r
      · by_cases hdt : sget r.donetime = t
        · subst hdt
          rw [if_pos ⟨he, rfl⟩]
          cases hm : alookup (sget r.donetime) m with
          | none =>
              have hstep : metaStep cat m r = m ++ [(sget r.donetime,
                  ⟨sget r.operator, sget r.productproduced,
                    sget r.productionOrder⟩)] := by
                unfold metaStep
                rw [if_pos he, hm]
                rfl
              rw [hstep, alookup_append, hm, oor_none_left, oor_none_left]
              simp [alookup, oor]
          | some h0 =>
              have hstep : metaStep cat m r = m := by
                unfold metaStep
                rw [if_pos he, hm]
                rfl
              rw [hstep, hm]
              simp [oor]
        · have hne : ¬ (eligible cat r ∧ sget r.donetime = t) := fun hc => hdt hc.2
          rw [if_neg hne]
          have hkeep : alookup t (metaStep cat m r) = alookup t m := by
            unfold metaStep
            rw [if_pos he]
            by_cases hm : (alookup (sget r.donetime) m).isSome = true
            · rw [if_pos hm]
            · rw [if_neg hm, alookup_append]
              rw [show alookup t [(sget r.donetime,
                    (⟨sget r.operator, sget r.productproduced,
                      sget r.productionOrder⟩ : Header))] = none by
                simp [alookup, hdt]]
              exact oor_none_right _
          rw [hkeep]
      · have hne : ¬ (eligible cat r ∧ sget r.donetime = t) := fun hc => he hc.1
        rw [if_neg hne]
        have hkeep : metaStep cat m r = m := by
          unfold metaStep
          rw [if_neg he]
        rw [hkeep]

/-! Lemmas about the Shift Indexer's accumulation. -/

theorem optMax_none_right (a : Option Time) : optMax a none = a := by
  cases a <;> rfl

theorem tmax_assoc (a b c : Time) : tmax (tmax a b) c = tmax a (tmax b c) := by
  obtain ⟨ah, am⟩ := a
  obtain ⟨bh, bm⟩ := b
  obtain ⟨ch, cm⟩ := c
  simp only [tmax, timeLt]
  split_ifs <;> simp_all [Time.mk.injEq] <;> omega

theorem optMax_assoc (a b c : Option Time) :
    optMax (optMax a b) c = optMax a (optMax b c) := by
  cases a <;> cases b <;> cases c <;> simp [optMax, tmax_assoc]

/-- The `last_time` update applied to an existing group for a new parsed
time `t`. -/
def updLast (t : Option Time) (g : Group) : Group :=
  match t, g.last_time with
  | some tt, none => { g with last_time := some tt }
  | some tt, some old =>
      if timeLt old tt then { g with last_time := some tt } else g
  | none, _ => g

theorem updLast_eq_optMax (t : Option Time) (g : Group) :
    updLast t g = { g with last_time := optMax g.last_time t } := by
  obtain ⟨sd, sh, st, lt⟩ := g
  cases t <;> cases lt <;> simp [updLast, optMax, tmax]
  split_ifs <;> simp

theorem idxStep_eq_of_invalid (idx : List (GKey × Group)) (r : Record)
    (h : ¬ validRec r) : idxStep idx r = idx := by
  unfold idxStep
  rw [if_pos]
  unfold validRec at h
  by_cases h1 : sget r.shiftDate = "" <;> by_cases h2 : sget r.shift = "" <;>
    by_cases h3 : sget r.station = "" <;> by_cases h4 : sget r.donetime = "" <;>
    simp_all

theorem idxStep_eq_of_valid (idx : List (GKey × Group)) (r : Record)
    (h : validRec r) :
    idxStep idx r =
      match alookup (rkey r) idx with
      | none => idx ++ [(rkey r,
          ⟨sget r.shiftDate, sget r.shift, sget r.station,
            parse_hhmm (sget r.donetime)⟩)]
      | some _ => aupdate (rkey r) (updLast (parse_hhmm (sget r.donetime))) idx := by
  unfold idxStep
  rw [if_neg]
  · rfl
  · obtain ⟨h1, h2, h3, h4⟩ := h
    simp [h1, h2, h3, h4]

theorem maxOver_cons (k : GKey) (r : Record) (rs : List Record) :
    maxOver k (r :: rs) =
      optMax (if validRec r ∧ rkey r = k then parse_hhmm (sget r.donetime) else none)
        (maxOver k rs) := rfl

theorem alookup_foldl_idxStep_some (rs : List Record)
    (idx : List (GKey × Group)) (k : GKey) (g : Group)
    (hsome : alookup k idx = some g) :
    alookup k (rs.foldl idxStep idx) =
      some { g with last_time := optMax g.last_time (maxOver k rs) } := by
  induction rs generalizing idx g with
  | nil =>
      show alookup k idx = _
      rw [hsome]
      simp [maxOver, optMax_none_right]
  | cons r tl ih =>
      show alookup k (tl.foldl idxStep (idxStep idx r)) = _
      by_cases hv : validRec r
      · by_cases hk : rkey r = k
        · subst hk
          have hstep : idxStep idx r =
              aupdate (rkey r) (updLast (parse_hhmm (sget r.donetime))) idx := by
            rw [idxStep_eq_of_valid _ _ hv, hsome]
          have halook : alookup (rkey r) (idxStep idx r) =
              some (updLast (parse_hhmm (sget r.donetime)) g) := by
            rw [hstep, alookup_aupdate, if_pos rfl, hsome]
            rfl
          rw [ih _ _ halook, updLast_eq_optMax]
          rw [maxOver_cons, if_pos ⟨hv, rfl⟩]
          simp [optMax_assoc]
        · have halook : alookup k (idxStep idx r) = some g := by
            rw [idxStep_eq_of_valid _ _ hv]
            cases hidx : alookup (rkey r) idx with
            | none =>
                rw [alookup_append]
                rw [show alookup k [(rkey r,
                    (⟨sget r.shiftDate, sget r.shift, sget r.station,
                      parse_hhmm (sget r.donetime)⟩ : Group))] = none by
                  simp [alookup, hk]]
                rw [oor_none_right, hsome]
            | some g' =>
                rw [alookup_aupdate, if_neg hk, hsome]
          rw [ih _ _ halook]
          rw [maxOver_cons, if_neg (fun hc : validRec r ∧ rkey r = k => hk hc.2)]
          rfl
      · have halook : alookup k (idxStep idx r) = some g := by
          rw [idxStep_eq_of_invalid _ _ hv, hsome]
        rw [ih _ _ halook]
        rw [maxOver_cons, if_neg (fun hc : validRec r ∧ rkey r = k => hv hc.1)]
        rfl

theorem alookup_foldl_idxStep_none (rs : List Record)
    (idx : List (GKey × Group)) (k : GKey)
    (hnone : alookup k idx = none) :
    alookup k (rs.foldl idxStep idx) =
      if ∃ r ∈ rs, validRec r ∧ rkey r = k then
        some ⟨k.1, k.2.1, k.2.2, maxOver k rs⟩
      else none := by
  induction rs generalizing idx with
  | nil =>
      show alookup k idx = _
      rw [hnone]
      simp
  | cons r tl ih =>
      show alookup k (tl.foldl idxStep (idxStep idx r)) = _
      by_cases hv : validRec r
      · by_cases hk : rkey r = k
        · subst hk
          have hstep : idxStep idx r = idx ++ [(rkey r,
              ⟨sget r.shiftDate, sget r.shift, sget r.station,
                parse_hhmm (sget r.donetime)⟩)] := by
            rw [idxStep_eq_of_valid _ _ hv, hnone]
          have halook : alookup (rkey r) (idxStep idx r) =
              some ⟨sget r.shiftDate, sget r.shift, sget r.station,
                parse_hhmm (sget r.donetime)⟩ := by
            rw [hstep, alookup_append, hnone, oor_none_left]
            simp [alookup]
          rw [alookup_foldl_idxStep_some tl _ _ _ halook]
          rw [if_pos ⟨r, List.mem_cons_self .., hv, rfl⟩]
          rw [maxOver_cons, if_pos ⟨hv, rfl⟩]
          simp [rkey]
        · have halook : alookup k (idxStep idx r) = none := by
            rw [idxStep_eq_of_valid _ _ hv]
            cases hidx : alookup (rkey r) idx with
            | none =>
                rw [alookup_append]
                rw [show alookup k [(rkey r,
                    (⟨sget r.shiftDate, sget r.shift, sget r.station,
                      parse_hhmm (sget r.donetime)⟩ : Group))] = none by
                  simp [alookup, hk]]
                rw [oor_none_right, hnone]
            | some g' =>
                rw [alookup_aupdate, if_neg hk, hnone]
          rw [ih _ halook]
          have hmax : maxOver k (r :: tl) = maxOver k tl := by
            rw [maxOver_cons, if_neg (fun hc : validRec r ∧ rkey r = k => hk hc.2)]
            rfl
          have hex : (∃ x ∈ r :: tl, validRec x ∧ rkey x = k) ↔
              (∃ x ∈ tl, validRec x ∧ rkey x = k) := by
            constructor
            · rintro ⟨x, hx, hvx, hkx⟩
              rcases List.mem_cons.mp hx with rfl | hm
              · exact absurd hkx hk
              · exact ⟨x, hm, hvx, hkx⟩
            · rintro ⟨x, hx, hp⟩
              exact ⟨x, List.mem_cons_of_mem _ hx, hp⟩
          simp only [hmax, hex]
      · have halook : alookup k (idxStep idx r) = none := by
          rw [idxStep_eq_of_invalid _ _ hv, hnone]
        rw [ih _ halook]
        have hmax : maxOver k (r :: tl) = maxOver k tl := by
          rw [maxOver_cons, if_neg (fun hc : validRec r ∧ rkey r = k => hv hc.1)]
          rfl
        have hex : (∃ x ∈ r :: tl, validRec x ∧ rkey x = k) ↔
            (∃ x ∈ tl, validRec x ∧ rkey x = k) := by
          constructor
          · rintro ⟨x, hx, hvx, hkx⟩
            rcases List.mem_cons.mp hx with rfl | hm
            · exact absurd hvx hv
            · exact ⟨x, hm, hvx, hkx⟩
          · rintro ⟨x, hx, hp⟩
            exact ⟨x, List.mem_cons_of_mem _ hx, hp⟩
        simp only [hmax, hex]

/-- Invariant of the indexer's accumulator: keys are distinct, and every
entry's key equals its group's three identifying fields. -/
def idxInv (l : List (GKey × Group)) : Prop :=
  (l.map Prod.fst).Nodup ∧
    ∀ p ∈ l, p.1 = (p.2.shiftDate, p.2.shift, p.2.station)

theorem updLast_fields (t : Option Time) (g : Group) :
    (updLast t g).shiftDate = g.shiftDate ∧ (updLast t g).shift = g.shift ∧
      (updLast t g).station = g.station := by
  rw [updLast_eq_optMax]
  exact ⟨rfl, rfl, rfl⟩

theorem idxInv_idxStep {idx : List (GKey × Group)} (r : Record)
    (h : idxInv idx) : idxInv (idxStep idx r) := by
  by_cases hv : validRec r
  · rw [idxStep_eq_of_valid _ _ hv]
    cases hidx : alookup (rkey r) idx with
    | none =>
        constructor
        · rw [List.map_append, List.nodup_append]
          refine ⟨h.1, List.nodup_singleton _, ?_⟩
          intro a ha hb
          simp only [List.map_cons, List.map_nil, List.mem_singleton] at hb
          subst hb
          exact (alookup_eq_none_iff _ _).mp hidx ha
        · intro p hp
          rcases List.mem_append.mp hp with hm | hm
          · exact h.2 p hm
          · simp only [List.mem_singleton] at hm
            subst hm
            rfl
    | some g =>
        constructor
        · rw [map_fst_aupdate]
          exact h.1
        · intro p hp
          rcases mem_aupdate hp with hm | ⟨q, hq, he⟩
          · exact h.2 p hm
          · subst he
            obtain ⟨h1, h2, h3⟩ := updLast_fields (parse_hhmm (sget r.donetime)) q.2
            rw [h1, h2, h3]
            exact h.2 q hq
  · rw [idxStep_eq_of_invalid _ _ hv]
    exact h

theorem idxInv_foldl (rs : List Record) (idx : List (GKey × Group))
    (h : idxInv idx) : idxInv (rs.foldl idxStep idx) := by
  induction rs generalizing idx with
  | nil => exact h
  | cons r tl ih => exact ih _ (idxInv_idxStep r h)

/-- Every group the Shift Indexer returns carries, as `last_time`, the
maximum validly parsed donetime of the kept records with its key. -/
theorem build_shift_index_last_time_eq {rows : List Record} {g : Group}
    (hg : g ∈ build_shift_index rows) :
    g.last_time = maxOver (g.shiftDate, g.shift, g.station) rows := by
  unfold build_shift_index at hg
  rw [List.mem_insertionSort] at hg
  obtain ⟨p, hp, hpe⟩ := List.mem_map.mp hg
  have hinv : idxInv (rows.foldl idxStep []) :=
    idxInv_foldl rows [] ⟨List.nodup_nil, by intro p hp; simp at hp⟩
  have hkey : p.1 = (g.shiftDate, g.shift, g.station) := by
    rw [← hpe]
    exact hinv.2 p hp
  have hlook : alookup p.1 (rows.foldl idxStep []) = some p.2 := by
    refine alookup_of_nodup_mem hinv.1 ?_
    rw [show (p.1, p.2) = p by rfl]
    exact hp
  rw [alookup_foldl_idxStep_none rows [] p.1 rfl] at hlook
  by_cases hex : ∃ r ∈ rows, validRec r ∧ rkey r = p.1
  · rw [if_pos hex] at hlook
    have hpe2 : p.2 = ⟨p.1.1, p.1.2.1, p.1.2.2, maxOver p.1 rows⟩ :=
      (Option.some_inj.mp hlook).symm
    rw [← hpe, hpe2]
  · rw [if_neg hex] at hlook
    exact absurd hlook (by simp)

/-! Small facts about digits, parsing bounds and comma removal. -/

theorem dval_le_nine {c : Char} (h : c.isDigit = true) : dval c ≤ 9 := by
  simp only [Char.isDigit, Bool.and_eq_true, decide_eq_true_eq] at h
  obtain ⟨h1, h2⟩ := h
  have g2 : c.toNat ≤ '9'.toNat := h2
  have g1 : '0'.toNat ≤ c.toNat := h1
  have e0 : '0'.toNat = 48 := rfl
  have e9 : '9'.toNat = 57 := rfl
  unfold dval
  omega

theorem parse_hhmm_total (s : String) :
    parse_hhmm s = none ∨
      ∃ t, parse_hhmm s = some t ∧ t.hour ≤ 23 ∧ t.minute ≤ 59 := by
  unfold parse_hhmm
  split
  · split_ifs with hc
    · exact Or.inr ⟨_, rfl, le_trans (dval_le_nine hc.1) (by norm_num),
        le_trans (dval_le_nine hc.2) (by norm_num)⟩
    · exact Or.inl rfl
  · split_ifs with hc
    · exact Or.inr ⟨_, rfl, hc.2.2.2,
        le_trans (dval_le_nine hc.2.2.1) (by norm_num)⟩
    · exact Or.inl rfl
  · split_ifs with hc
    · exact Or.inr ⟨_, rfl, le_trans (dval_le_nine hc.1) (by norm_num),
        hc.2.2.2⟩
    · exact Or.inl rfl
  · split_ifs with hc
    · exact Or.inr ⟨_, rfl, hc.2.2.2.2.1, hc.2.2.2.2.2⟩
    · exact Or.inl rfl
  · exact Or.inl rfl

theorem comma_not_mem_normalize (v : Option String) :
    ',' ∉ (normalize_value v).data := by
  cases v with
  | none => simp [normalize_value]
  | some s =>
      show ',' ∉ ((if pyStrip s = "-" ∨ pyStrip s = "N/A" ∨ pyStrip s = "n/a"
        then "" else replaceCommas (pyStrip s)) : String).data
      split_ifs with h
      · simp
      · unfold replaceCommas
        intro hmem
        rw [show (⟨(pyStrip s).data.map
            (fun c => if c = ',' then '.' else c)⟩ : String).data =
            (pyStrip s).data.map (fun c => if c = ',' then '.' else c) from rfl]
          at hmem
        obtain ⟨c, hc, hfc⟩ := List.mem_map.mp hmem
        by_cases hc' : c = ',' <;> simp [hc'] at hfc

/-! The claims. -/

/-- C6: `normalize_value` maps an absent value to the empty string; otherwise
it trims the string form, maps a result equal to "-", "N/A" or "n/a" to the
empty string, and otherwise replaces every comma with a period; hence the
result never contains a comma, and the value " 3,5 " normalizes to "3.5". -/
theorem claim_C6_normalize :
    normalize_value none = "" ∧
    (∀ s : String, normalize_value (some s) =
      (if pyStrip s = "-" ∨ pyStrip s = "N/A" ∨ pyStrip s = "n/a" then ""
       else replaceCommas (pyStrip s))) ∧
    (∀ v : Option String, ',' ∉ (normalize_value v).data) ∧
    normalize_value (some "-") = "" ∧
    normalize_value (some "N/A") = "" ∧
    normalize_value (some "n/a") = "" ∧
    normalize_value (some " 3,5 ") = "3.5" := by
  refine ⟨rfl, fun s => rfl, comma_not_mem_normalize, ?_, ?_, ?_, ?_⟩ <;> decide

/-- C7: `parse_hhmm` never raises: it returns absent on any parse failure,
in particular for "", "abc" and "25:99", and a valid time-of-day (hour at
most 23, minute at most 59) for well-formed inputs such as "06:00" and
"23:59". -/
theorem claim_C7_parse_hhmm :
    parse_hhmm "" = none ∧ parse_hhmm "abc" = none ∧
    parse_hhmm "25:99" = none ∧
    parse_hhmm "06:00" = some ⟨6, 0⟩ ∧ parse_hhmm "23:59" = some ⟨23, 59⟩ ∧
    ∀ s : String, parse_hhmm s = none ∨
      ∃ t, parse_hhmm s = some t ∧ t.hour ≤ 23 ∧ t.minute ≤ 59 := by
  refine ⟨?_, ?_, ?_, ?_, ?_, parse_hhmm_total⟩ <;> decide

/-- C10: `parse_hhmm` is total over arbitrary dynamic values: a non-string
input (which has no `.strip` method) yields absent via the absorbed
exception, a string input behaves as string parsing, and no input ever
produces anything but absent or a valid parsed time. -/
theorem claim_C10_parse_hhmm_any_total :
    (∀ v : PyVal, parse_hhmm_any v = none ∨
      ∃ t, parse_hhmm_any v = some t ∧ t.hour ≤ 23 ∧ t.minute ≤ 59) ∧
    (∀ s : String, parse_hhmm_any (PyVal.pyStr s) = parse_hhmm s) ∧
    parse_hhmm_any PyVal.pyNone = none ∧
    (∀ n : Int, parse_hhmm_any (PyVal.pyInt n) = none) ∧
    (∀ b : Bool, parse_hhmm_any (PyVal.pyBool b) = none) := by
  refine ⟨fun v => ?_, fun s => rfl, rfl, fun n => rfl, fun b => rfl⟩
  cases v with
  | pyStr s => exact parse_hhmm_total s
  | pyNone => exact Or.inl rfl
  | pyInt n => exact Or.inl rfl
  | pyBool b => exact Or.inl rfl

/-- C2: `shift_relative_key` returns (donetime minutes − shift-start minutes)
mod 1440, with the start taken as 00:00 for an unknown label and the donetime
as 00:00 when unparsable; the key lies in [0, 1440); with the shift Γ
starting at 22:00, "23:00" maps to 60 and "01:00" to 180, and sorting
["06:00", "23:00", "01:00"] by this key yields ["23:00", "01:00", "06:00"]. -/
theorem claim_C2_shift_relative_key :
    (∀ tstr shift_name : String, ∀ table : List (String × String),
      shift_relative_key tstr shift_name table =
        ((minutes ((parse_hhmm tstr).getD ⟨0, 0⟩) : Int) -
          (minutes ((parse_hhmm
            ((alookup shift_name table).getD "00:00")).getD ⟨0, 0⟩) : Int))
          % 1440) ∧
    (∀ tstr shift_name : String, ∀ table : List (String × String),
      0 ≤ shift_relative_key tstr shift_name table ∧
        shift_relative_key tstr shift_name table < 1440) ∧
    shift_relative_key "23:00" "Γ" SHIFT_START = 60 ∧
    shift_relative_key "01:00" "Γ" SHIFT_START = 180 ∧
    sort_donetime_list ["06:00", "23:00", "01:00"] "Γ" =
      ["23:00", "01:00", "06:00"] := by
  refine ⟨fun tstr sh table => rfl, fun tstr sh table => ?_, ?_, ?_, ?_⟩
  · unfold shift_relative_key
    exact ⟨Int.emod_nonneg _ (by norm_num), Int.emod_lt_of_pos _ (by norm_num)⟩
  · decide
  · decide
  · decide

theorem subsOf_eq (cat : List String) (rows : List Record) (sd sh st : String) :
    subsOf cat rows sd sh st =
      (filteredOf rows sd sh st).foldl (subStep cat) [] := by
  unfold subsOf
  rw [foldl_procStep_split]

theorem metaOf_eq (cat : List String) (rows : List Record) (sd sh st : String) :
    metaOf cat rows sd sh st =
      (filteredOf rows sd sh st).foldl (metaStep cat) [] := by
  unfold metaOf
  rw [foldl_procStep_split]

theorem build_report_columns (cat : List String) (rows : List Record)
    (sd sh st : String) :
    (build_report cat rows sd sh st).columns =
      sort_donetime_list ((subsOf cat rows sd sh st).map Prod.fst) sh := rfl

theorem build_report_matrix (cat : List String) (rows : List Record)
    (sd sh st : String) :
    (build_report cat rows sd sh st).matrix =
      cat.map (fun item =>
        ⟨item, (build_report cat rows sd sh st).columns.map (fun t =>
          (alookup item ((alookup t (subsOf cat rows sd sh st)).getD [])).getD
            "")⟩) := rfl

theorem build_report_header_eq (cat : List String) (rows : List Record)
    (sd sh st : String) :
    (build_report cat rows sd sh st).header =
      match (build_report cat rows sd sh st).columns.getLast? with
      | none => emptyHeader
      | some c => (alookup c (metaOf cat rows sd sh st)).getD emptyHeader := rfl

/-- The item value recorded for donetime `t` and item `item`, in terms of
the record list: the last write among the eligible filtered records. -/
theorem inLookup_subsOf (cat : List String) (rows : List Record)
    (sd sh st t item : String) :
    inLookup t item (subsOf cat rows sd sh st) =
      lastVal cat t item (filteredOf rows sd sh st) := by
  rw [subsOf_eq, inLookup_foldl_subStep]
  rw [show inLookup t item ([] : Subs) = none from rfl]
  exact oor_none_right _

/-- C1: `build_report`'s matrix has exactly one row per catalog item, in
catalog order; every row has exactly as many values as there are columns;
and wherever an item has no recorded value at a column's donetime the entry
is the empty string. -/
theorem claim_C1_matrix_shape (cat : List String) (rows : List Record)
    (sd sh st : String) :
    ((build_report cat rows sd sh st).matrix.map Row.label = cat) ∧
    (∀ row ∈ (build_report cat rows sd sh st).matrix,
      row.values.length = (build_report cat rows sd sh st).columns.length) ∧
    (∀ row ∈ (build_report cat rows sd sh st).matrix, ∀ j : Nat, ∀ t : String,
      (build_report cat rows sd sh st).columns.get? j = some t →
      lastVal cat t row.label (filteredOf rows sd sh st) = none →
      row.values.get? j = some "") := by
  refine ⟨?_, ?_, ?_⟩
  · conv_lhs => rw [build_report_matrix]
    rw [List.map_map]
    exact List.map_id cat
  · intro row hrow
    rw [build_report_matrix] at hrow
    obtain ⟨item, _, rfl⟩ := List.mem_map.mp hrow
    exact List.length_map ..
  · intro row hrow j t hj hnone
    rw [build_report_matrix] at hrow
    obtain ⟨item, _, rfl⟩ := List.mem_map.mp hrow
    show ((build_report cat rows sd sh st).columns.map _).get? j = some ""
    rw [List.get?_map, hj]
    show some ((alookup item ((alookup t (subsOf cat rows sd sh st)).getD
      [])).getD "") = some ""
    rw [show alookup item ((alookup t (subsOf cat rows sd sh st)).getD []) =
        inLookup t item (subsOf cat rows sd sh st) from rfl]
    rw [inLookup_subsOf]
    rw [show lastVal cat t item (filteredOf rows sd sh st) = none from hnone]
    rfl

/-- C1 witness: on the spec's end-to-end scenario the matrix lists the ten
catalog items in order, and the blank cell of a row with no recorded value
is the empty string. -/
theorem claim_C1_witness :
    (build_report ORDERED_ITEMS [exRec1, exRec2]
        "2024-01-01" "A" "S1").matrix.map Row.label = ORDERED_ITEMS ∧
    (⟨"Είδος μαργαρίνης", ["", ""]⟩ : Row).values.get? 1 = some "" := by
  have h := claim_C1_matrix_shape ORDERED_ITEMS [exRec1, exRec2]
    "2024-01-01" "A" "S1"
  refine ⟨h.1, ?_⟩
  exact h.2.2 ⟨"Είδος μαργαρίνης", ["", ""]⟩ (by decide) 1 "07:10"
    (by decide) (by decide)

/-- C8: when no record survives the selector filter, `build_report` returns
empty columns and every matrix row with an empty value sequence. -/
theorem claim_C8_no_data (cat : List String) (rows : List Record)
    (sd sh st : String) (h : filteredOf rows sd sh st = []) :
    (build_report cat rows sd sh st).columns = [] ∧
    ∀ row ∈ (build_report cat rows sd sh st).matrix, row.values = [] := by
  have hsubs : subsOf cat rows sd sh st = [] := by
    rw [subsOf_eq, h]
    rfl
  have hcols : (build_report cat rows sd sh st).columns = [] := by
    rw [build_report_columns, hsubs]
    rfl
  refine ⟨hcols, ?_⟩
  intro row hrow
  rw [build_report_matrix] at hrow
  obtain ⟨item, _, rfl⟩ := List.mem_map.mp hrow
  show (build_report cat rows sd sh st).columns.map _ = []
  rw [hcols]
  rfl

/-- C8 witness: a selector absent from the records yields the empty-columns,
all-rows-empty result. -/
theorem claim_C8_witness :
    (build_report ORDERED_ITEMS [exRec1, exRec2]
        "2024-01-01" "A" "S2").columns = [] ∧
    ∀ row ∈ (build_report ORDERED_ITEMS [exRec1, exRec2]
        "2024-01-01" "A" "S2").matrix, row.values = [] :=
  claim_C8_no_data ORDERED_ITEMS [exRec1, exRec2] "2024-01-01" "A" "S2"
    (by decide)

/-- C3: the Shift Indexer ignores records with an empty trimmed `shiftDate`,
`shift`, `station` or `donetime` (removing such a record changes nothing),
every returned group's `last_time` is the maximum validly parsed donetime of
the kept records with its key, and the spec's example pair of records under
one key yields 09:30 while a record missing `station` contributes nothing. -/
theorem claim_C3_indexer :
    (∀ rows₁ rows₂ : List Record, ∀ r : Record, ¬ validRec r →
      build_shift_index (rows₁ ++ r :: rows₂) =
        build_shift_index (rows₁ ++ rows₂)) ∧
    (∀ rows : List Record, ∀ g ∈ build_shift_index rows,
      g.last_time = maxOver (g.shiftDate, g.shift, g.station) rows) ∧
    build_shift_index [exQ1, exQ2] =
      [⟨"2024-01-01", "A", "Line1", some ⟨9, 30⟩⟩] ∧
    build_shift_index [exQ1, exQ2, exQbad] = build_shift_index [exQ1, exQ2] := by
  refine ⟨?_, fun rows g hg => build_shift_index_last_time_eq hg, ?_, ?_⟩
  · intro rows₁ rows₂ r hr
    unfold build_shift_index
    rw [List.foldl_append, List.foldl_cons, idxStep_eq_of_invalid _ _ hr,
      ← List.foldl_append]
  · decide
  · decide

/-- C3 witness: dropping the station-less record is the identity on the
index, and the example group's `last_time` is the maximum parsed time. -/
theorem claim_C3_witness :
    build_shift_index ([exQ1] ++ exQbad :: [exQ2]) =
      build_shift_index ([exQ1] ++ [exQ2]) ∧
    (⟨"2024-01-01", "A", "Line1", some ⟨9, 30⟩⟩ : Group).last_time =
      maxOver ("2024-01-01", "A", "Line1") [exQ1, exQ2] := by
  have h := claim_C3_indexer
  exact ⟨h.1 [exQ1] [exQ2] exQbad (by decide),
    h.2.1 [exQ1, exQ2] _ (by decide)⟩

/-- C4: the Shift Indexer's output is sorted descending by (parsed date,
last time) with the stated fallbacks: no group is followed by one of a
strictly later date, and within one date key later `last_time` comes
first. -/
theorem claim_C4_index_sorted (rows : List Record) :
    ((build_shift_index rows).Pairwise fun a b =>
      dtKeyLE (idx_sort_key b) (idx_sort_key a)) ∧
    ((build_shift_index rows).Pairwise fun a b =>
      ¬ dateLt (dateKey a) (dateKey b)) ∧
    ((build_shift_index rows).Pairwise fun a b =>
      dateKey a = dateKey b → timeLe (timeKey b) (timeKey a)) := by
  have hs : (build_shift_index rows).Pairwise groupGE := by
    unfold build_shift_index
    exact List.sorted_insertionSort groupGE _
  refine ⟨hs, hs.imp ?_, hs.imp ?_⟩
  · intro a b hab
    intro hlt
    simp only [groupGE, dtKeyLE, idx_sort_key, timeLe] at hab
    simp only [dateLt, dateKey] at hlt
    omega
  · intro a b hab heq
    have h1 : (dateKey a).year = (dateKey b).year := by rw [heq]
    have h2 : (dateKey a).month = (dateKey b).month := by rw [heq]
    have h3 : (dateKey a).day = (dateKey b).day := by rw [heq]
    simp only [groupGE, dtKeyLE, idx_sort_key, timeLe] at hab
    simp only [dateKey] at h1 h2 h3
    simp only [timeLe, timeKey]
    omega

/-- C4 witness: on a concrete batch the group dated 2024-01-02 precedes the
one dated 2024-01-01, and the pairwise descending property holds. -/
theorem claim_C4_witness :
    ((build_shift_index [exQ1, exQ3]).Pairwise fun a b =>
      dtKeyLE (idx_sort_key b) (idx_sort_key a)) ∧
    build_shift_index [exQ1, exQ3] =
      [⟨"2024-01-02", "A", "Line1", some ⟨7, 0⟩⟩,
       ⟨"2024-01-01", "A", "Line1", some ⟨8, 0⟩⟩] :=
  ⟨(claim_C4_index_sorted [exQ1, exQ3]).1, by decide⟩

theorem firstTriple_isSome_of_mem {cat : List String} {t : String}
    {rs : List Record} {r : Record} (hr : r ∈ rs) (he : eligible cat r)
    (hdt : sget r.donetime = t) : (firstTriple cat t rs).isSome = true := by
  induction rs with
  | nil => simp at hr
  | cons a tl ih =>
      rw [firstTriple_cons]
      by_cases hc : eligible cat a ∧ sget a.donetime = t
      · rw [if_pos hc]
        rfl
      · rw [if_neg hc]
        rcases List.mem_cons.mp hr with rfl | hm
        · exact absurd ⟨he, hdt⟩ hc
        · exact ih hm

/-- C5: for each donetime the header triple comes from the first eligible
record seen at that donetime; the returned header is the triple recorded for
the chronologically last column when columns exist, and all-empty
otherwise. -/
theorem claim_C5_header (cat : List String) (rows : List Record)
    (sd sh st : String) :
    (∀ t : String, alookup t (metaOf cat rows sd sh st) =
      firstTriple cat t (filteredOf rows sd sh st)) ∧
    ((build_report cat rows sd sh st).columns = [] →
      (build_report cat rows sd sh st).header = emptyHeader) ∧
    (∀ c : String,
      (build_report cat rows sd sh st).columns.getLast? = some c →
      (build_report cat rows sd sh st).header =
        (firstTriple cat c (filteredOf rows sd sh st)).getD emptyHeader) := by
  have hmeta : ∀ t : String, alookup t (metaOf cat rows sd sh st) =
      firstTriple cat t (filteredOf rows sd sh st) := by
    intro t
    rw [metaOf_eq, alookup_foldl_metaStep]
    rfl
  refine ⟨hmeta, ?_, ?_⟩
  · intro hc
    rw [build_report_header_eq]
    rw [show (build_report cat rows sd sh st).columns.getLast? = none by
      rw [hc]; rfl]
  · intro c hc
    rw [build_report_header_eq, hc]
    show (alookup c (metaOf cat rows sd sh st)).getD emptyHeader = _
    rw [hmeta c]

/-- C5 witness: on the spec's end-to-end scenario the last column is 07:10
and the header is the (all-empty) triple of the first record at 07:10. -/
theorem claim_C5_witness :
    alookup "06:05" (metaOf ORDERED_ITEMS [exRec1, exRec2]
        "2024-01-01" "A" "S1") =
      firstTriple ORDERED_ITEMS "06:05"
        (filteredOf [exRec1, exRec2] "2024-01-01" "A" "S1") ∧
    (build_report ORDERED_ITEMS [exRec1, exRec2] "2024-01-01" "A" "S1").header =
      (firstTriple ORDERED_ITEMS "07:10"
        (filteredOf [exRec1, exRec2] "2024-01-01" "A" "S1")).getD emptyHeader := by
  have h := claim_C5_header ORDERED_ITEMS [exRec1, exRec2] "2024-01-01" "A" "S1"
  exact ⟨h.1 "06:05", h.2.2 "07:10" (by decide)⟩

/-- C9: every donetime with a submissions entry also has a meta entry, so
when columns are non-empty the header lookup at the last column always
finds a recorded triple and the all-empty fallback is not what is
returned by the lookup. -/
theorem claim_C9_meta_covers (cat : List String) (rows : List Record)
    (sd sh st : String) :
    (∀ t : String, (alookup t (subsOf cat rows sd sh st)).isSome = true →
      (alookup t (metaOf cat rows sd sh st)).isSome = true) ∧
    ((build_report cat rows sd sh st).columns ≠ [] →
      ∃ c h, (build_report cat rows sd sh st).columns.getLast? = some c ∧
        alookup c (metaOf cat rows sd sh st) = some h ∧
        (build_report cat rows sd sh st).header = h) := by
  have hcover : ∀ t : String,
      (alookup t (subsOf cat rows sd sh st)).isSome = true →
      (alookup t (metaOf cat rows sd sh st)).isSome = true := by
    intro t hsubs
    rw [subsOf_eq, alookup_foldl_subStep_isSome] at hsubs
    rcases hsubs with h | ⟨r, hr, he, hdt⟩
    · simp [alookup] at h
    · rw [metaOf_eq, alookup_foldl_metaStep]
      rw [show alookup t ([] : Meta) = none from rfl, oor_none_left]
      exact firstTriple_isSome_of_mem hr he hdt
  refine ⟨hcover, ?_⟩
  intro hne
  cases hlast : (build_report cat rows sd sh st).columns.getLast? with
  | none => exact absurd (List.getLast?_eq_none_iff.mp hlast) hne
  | some c =>
      have hmem : c ∈ (build_report cat rows sd sh st).columns :=
        List.mem_of_getLast?_eq_some hlast
      rw [build_report_columns] at hmem
      have hmem2 : c ∈ (subsOf cat rows sd sh st).map Prod.fst := by
        unfold sort_donetime_list at hmem
        exact (List.mem_insertionSort _).mp hmem
      have hsome : (alookup c (metaOf cat rows sd sh st)).isSome = true :=
        hcover c ((alookup_isSome_iff ..).mpr hmem2)
      obtain ⟨h0, hh⟩ := Option.isSome_iff_exists.mp hsome
      refine ⟨c, h0, rfl, hh, ?_⟩
      rw [build_report_header_eq, hlast]
      show (alookup c (metaOf cat rows sd sh st)).getD emptyHeader = h0
      rw [hh]
      rfl

/-- C9 witness: on the spec's end-to-end scenario the subsumption holds at
06:05 and the last column's header lookup succeeds. -/
theorem claim_C9_witness :
    (alookup "06:05" (metaOf ORDERED_ITEMS [exRec1, exRec2]
        "2024-01-01" "A" "S1")).isSome = true ∧
    ∃ c h, (build_report ORDERED_ITEMS [exRec1, exRec2]
        "2024-01-01" "A" "S1").columns.getLast? = some c ∧
      alookup c (metaOf ORDERED_ITEMS [exRec1, exRec2]
        "2024-01-01" "A" "S1") = some h ∧
      (build_report ORDERED_ITEMS [exRec1, exRec2]
        "2024-01-01" "A" "S1").header = h := by
  have h := claim_C9_meta_covers ORDERED_ITEMS [exRec1, exRec2]
    "2024-01-01" "A" "S1"
  exact ⟨h.1 "06:05" (by decide), h.2 (by decide)⟩

end Evocon
